import Mathlib

/-!
Verification development for the GCG automation reconciliation engine
(`comparison-engine.js`).  JavaScript strings are modelled as `List Char`,
spreadsheet cell values as strings (with `[]` playing the role of the empty
or missing cell, which is falsy in JS), and the engine's sheet reads are
parameterized by the materialized sheet data.  All definitions below are
translated from the source file; the theorems settle the specification
claims.
-/

namespace Gcg

/-- JavaScript strings, modelled as lists of characters. -/
abbrev Str := List Char

/-- Convenience: a Lean string literal as a `Str`. -/
def str (s : String) : Str := s.toList

/-- JS `String.prototype.toLowerCase`, modelled characterwise. -/
def lowerStr (s : Str) : Str := s.map Char.toLower

/-- Whitespace characters removed by JS `String.prototype.trim`
(modelled over the common ASCII whitespace set). -/
def isWs (c : Char) : Bool := c = ' ' || c = '\t' || c = '\n' || c = '\r'

/-- Drop the trailing run of whitespace (the right half of JS `trim`). -/
def rdropWs (l : Str) : Str := (l.reverse.dropWhile isWs).reverse

/-- JS `String.prototype.trim`: drop whitespace at both ends. -/
def trimChars (l : Str) : Str := (rdropWs l).dropWhile isWs

/-- Character test used to split a group label at the first `&`. -/
def notAmp (c : Char) : Bool := c != '&'

/-- `hasLead pat hay`: `pat` is a leading segment of `hay`
(JS `String.prototype.startsWith`). -/
def hasLead : Str → Str → Bool
  | [], _ => true
  | _ :: _, [] => false
  | p :: ps, h :: hs => p == h && hasLead ps hs

/-- `containsSub hay pat`: `pat` occurs contiguously inside `hay`
(JS `String.prototype.includes`). -/
def containsSub : Str → Str → Bool
  | [], pat => pat.isEmpty
  | c :: t, pat => hasLead pat (c :: t) || containsSub t pat

/-- Code-point comparison of strings, the shallow model of
`String.prototype.localeCompare` returning a non-positive number. -/
def strLe : Str → Str → Bool
  | [], _ => true
  | _ :: _, [] => false
  | a :: as, b :: bs =>
    if a.toNat < b.toNat then true
    else if b.toNat < a.toNat then false
    else strLe as bs

/-- `gcgStatus` object attached to an export member. -/
structure GcgStatus where
  inGroup : Bool
  groupName : Option Str
deriving DecidableEq

/-- A member record from the export data (`exportData.activeMembers`,
after GCG-status enhancement and family enhancement). -/
structure Member where
  personId : Str
  firstName : Str
  lastName : Str
  fullName : Str
  gcgStatus : GcgStatus
  isActiveMember : Bool
  isSynthetic : Bool
  familyId : Option Str
  familyRole : Option Str
deriving DecidableEq

/-- A row of the persisted "GCG Members" sheet as read by
`getGCGMembersWithPersonId` (`null` person id modelled as `none`). -/
structure CurrentMember where
  personId : Option Str
  firstName : Str
  lastName : Str
  fullName : Str
  group : Str
  deacon : Str
  pastor : Str
  team : Str
  actionSteps : Str
  assignedTo : Str
  rowIndex : Nat
deriving DecidableEq

/-- A row of the persisted "Not in a GCG" sheet as produced by
`getCurrentNotInGCGMembers`. -/
structure NotGroupedEntry where
  personId : Str
  firstName : Str
  lastName : Str
  familyName : Str
  familyId : Option Str
  familyRole : Option Str
  rowIndex : Nat
deriving DecidableEq

/-- `findColumnIndex` inner loop: first index whose non-empty cell
contains the lowered search text; `-1` if none. -/
def findColumnIndexAux (searchLower : Str) : List Str → Nat → Int
  | [], _ => -1
  | c :: rest, i =>
    if c ≠ [] ∧ containsSub (lowerStr c) searchLower then (i : Int)
    else findColumnIndexAux searchLower rest (i + 1)

/-- `findColumnIndex(headers, searchName)` from the source: case-insensitive
substring containment, first hit wins, otherwise `-1`. -/
def findColumnIndex (headers : List Str) (searchName : Str) : Int :=
  findColumnIndexAux (lowerStr searchName) headers 0

/-- One row of `findHeaderRow`'s scan: some non-empty cell contains
"first" and some non-empty cell contains "last" (case-insensitive). -/
def rowHasHeaderPair (row : List Str) : Bool :=
  row.any (fun cell => !cell.isEmpty && containsSub (lowerStr cell) (str "first")) &&
  row.any (fun cell => !cell.isEmpty && containsSub (lowerStr cell) (str "last"))

/-- `findHeaderRow` loop over at most the first five rows. -/
def findHeaderRowAux : List (List Str) → Nat → Nat → Int
  | [], _, _ => -1
  | row :: rest, i, fuel =>
    match fuel with
    | 0 => -1
    | fuel' + 1 =>
      if rowHasHeaderPair row then (i : Int) else findHeaderRowAux rest (i + 1) fuel'

/-- `findHeaderRow(data)` from the source. -/
def findHeaderRow (data : List (List Str)) : Int :=
  findHeaderRowAux data 0 (min 5 data.length)

/-- JS `row[i]` for a possibly out-of-range (or `-1`) column index:
the missing cell is modelled by the empty (falsy) string. -/
def cellAt (row : List Str) (i : Int) : Str :=
  if i < 0 then [] else row.getD i.toNat []

/-- Column indices resolved by `getGCGMembersWithPersonId`. -/
structure GcgCols where
  personId : Int
  firstName : Int
  lastName : Int
  group : Int
  deacon : Int
  pastor : Int
  team : Int
  actionSteps : Int
  assignedTo : Int

/-- The row loop of `getGCGMembersWithPersonId`: skip rows missing a first
or last name, skip rows whose group is empty or the sentinel "x". -/
def gcgMemberRows (cols : GcgCols) : List (List Str) → Nat → List CurrentMember
  | [], _ => []
  | row :: rest, i =>
    let restMembers := gcgMemberRows cols rest (i + 1)
    if cellAt row cols.firstName = [] ∨ cellAt row cols.lastName = [] then restMembers
    else
      let m : CurrentMember :=
        { personId := if cellAt row cols.personId = [] then none else some (cellAt row cols.personId)
          firstName := cellAt row cols.firstName
          lastName := cellAt row cols.lastName
          fullName := trimChars (cellAt row cols.firstName ++ str " " ++ cellAt row cols.lastName)
          group := cellAt row cols.group
          deacon := cellAt row cols.deacon
          pastor := cellAt row cols.pastor
          team := cellAt row cols.team
          actionSteps := cellAt row cols.actionSteps
          assignedTo := cellAt row cols.assignedTo
          rowIndex := i + 1 }
      if m.group ≠ [] ∧ lowerStr m.group ≠ str "x" then m :: restMembers else restMembers

/-- `getGCGMembersWithPersonId`, parameterized by the materialized sheet
data; the thrown `Person ID` error becomes an `Except.error`. -/
def getGCGMembersWithPersonId (data : List (List Str)) : Except Str (List CurrentMember) :=
  if data.length ≤ 1 then .ok []
  else
    let hri := findHeaderRow data
    let headerIdx : Nat := if 0 ≤ hri then hri.toNat else 1
    let headers := data.getD headerIdx []
    let cols : GcgCols :=
      { personId := findColumnIndex headers (str "Person ID")
        firstName := findColumnIndex headers (str "First")
        lastName := findColumnIndex headers (str "Last")
        group := findColumnIndex headers (str "Group")
        deacon := findColumnIndex headers (str "Deacon")
        pastor := findColumnIndex headers (str "Pastor")
        team := findColumnIndex headers (str "Team")
        actionSteps := findColumnIndex headers (str "Action Steps")
        assignedTo := findColumnIndex headers (str "Assigned to") }
    if cols.personId = -1 then
      .error (str "Person ID column not found. Please ensure column A has Person ID header.")
    else
      .ok (gcgMemberRows cols (data.drop (headerIdx + 1)) (headerIdx + 1))

/-- Inactivity keyword list from `isMarkedInactive`. -/
def inactiveIndicators : List Str :=
  [str "inactive", str "moved away", str "no longer active", str "left church", str "transferred"]

/-- `isMarkedInactive(member)`: the action-steps note contains one of the
inactivity keywords (substring containment on lowered text). -/
def isMarkedInactive (m : CurrentMember) : Bool :=
  if m.actionSteps = [] then false
  else inactiveIndicators.any (fun ind => containsSub (lowerStr m.actionSteps) ind)

/-- `normalizeGroupName(groupName)`: trim, split at the first `&`, return
the trimmed left segment; falsy input gives the empty string. -/
def normalizeGroupName (groupName : Option Str) : Str :=
  match groupName with
  | none => []
  | some l => if l = [] then [] else trimChars ((trimChars l).takeWhile notAmp)

/-- JS truthiness of a person-id field (`null` and `""` are falsy). -/
def jsTruthyId : Option Str → Bool
  | none => false
  | some s => !s.isEmpty

/-- Last match in a list: models `Map.set` overwriting earlier entries,
so that `Map.get` returns the last value set for a key. -/
def findLastP (p : α → Bool) (l : List α) : Option α := l.reverse.find? p

/-- Lookup in the `currentByPersonId` map built by the engine: only
entries with a truthy person id are keyed there. -/
def lookupById (l : List CurrentMember) (pid : Str) : Option CurrentMember :=
  if pid = [] then none
  else findLastP (fun cm => cm.personId == some pid) l

/-- Lookup in the `currentByName` map: entries lacking a truthy person id,
keyed by lowercased full name. -/
def lookupByName (l : List CurrentMember) (nameLower : Str) : Option CurrentMember :=
  findLastP (fun cm => !jsTruthyId cm.personId && lowerStr cm.fullName == nameLower) l

/-- The inactive filtering of the current sheet rows
(`activeCurrentMembers` in `fixedCompareWithInactiveFiltering`). -/
def activeCurrentOf (allCurrent : List CurrentMember) : List CurrentMember :=
  allCurrent.filter (fun cm => !isMarkedInactive cm)

/-- The export-side filtering in `fixedCompareWithInactiveFiltering`:
members in a group, except those marked inactive in the current sheet. -/
def exportMembersOf (activeMembers : List Member) (allCurrent : List CurrentMember) : List Member :=
  activeMembers.filter (fun m =>
    m.gcgStatus.inGroup &&
    (match allCurrent.find? (fun cm => cm.personId == some m.personId) with
     | some cm => !isMarkedInactive cm
     | none => true))

/-- A record pushed onto `changes.updates`. -/
inductive UpdateEntry where
  | missingPersonId (member : CurrentMember) (exportMember : Member)
  | groupUpdate (currentMember : CurrentMember) (exportMember : Member)
      (oldValue : Str) (newValue : Option Str)
deriving DecidableEq

/-- The export member an update entry was emitted for. -/
def updateExportOf : UpdateEntry → Member
  | .missingPersonId _ em => em
  | .groupUpdate _ em _ _ => em

/-- The current-sheet member an update entry refers to. -/
def updateCurrentOf : UpdateEntry → CurrentMember
  | .missingPersonId cm _ => cm
  | .groupUpdate cm _ _ _ => cm

/-- The `changes` object produced by `fixedCompareWithInactiveFiltering`. -/
structure Changes where
  additions : List Member
  updates : List UpdateEntry
  removals : List CurrentMember
  inactiveFiltered : Nat
  exportMissingButActive : List CurrentMember
deriving DecidableEq

/-- The additions/updates loop over `exportMembers`: id match first, then
name fallback, else an addition; on an id match a group update is emitted
exactly when the normalized group names differ. -/
def processExports (acm : List CurrentMember) : List Member → List Member × List UpdateEntry
  | [] => ([], [])
  | em :: rest =>
    let r := processExports acm rest
    match lookupById acm em.personId with
    | some cm =>
      if normalizeGroupName (some cm.group) ≠ normalizeGroupName em.gcgStatus.groupName then
        (r.1, .groupUpdate cm em cm.group em.gcgStatus.groupName :: r.2)
      else r
    | none =>
      match lookupByName acm (lowerStr em.fullName) with
      | some nm => (r.1, .missingPersonId nm em :: r.2)
      | none => (em :: r.1, r.2)

/-- JS `Set.has` over a list of keys. -/
def hasId (ids : List Str) (pid : Str) : Bool := ids.any (fun x => x == pid)

/-- The removals loop over `activeCurrentMembers`: entries with a truthy
person id absent from the export-member id set become either
`exportMissingButActive` (id still present in `activeMembers`) or a
removal. -/
def processRemovals (activeMembers : List Member) (exportIds : List Str) :
    List CurrentMember → List CurrentMember × List CurrentMember
  | [] => ([], [])
  | cm :: rest =>
    let r := processRemovals activeMembers exportIds rest
    match cm.personId with
    | some pid =>
      if pid ≠ [] ∧ ¬ hasId exportIds pid then
        if (activeMembers.find? (fun m => m.personId == pid)).isSome then
          (r.1, cm :: r.2)
        else (cm :: r.1, r.2)
      else r
    | none => r

/-- Body of `fixedCompareWithInactiveFiltering` after the current sheet has
been materialized into `allCurrent`. -/
def fixedCompareCore (activeMembers : List Member) (allCurrent : List CurrentMember) : Changes :=
  let activeCurrentMembers := activeCurrentOf allCurrent
  let exportMembers := exportMembersOf activeMembers allCurrent
  let exportIds := exportMembers.map (fun m => m.personId)
  let au := processExports activeCurrentMembers exportMembers
  let ri := processRemovals activeMembers exportIds activeCurrentMembers
  { additions := au.1
    updates := au.2
    removals := ri.1
    inactiveFiltered := allCurrent.length - activeCurrentMembers.length
    exportMissingButActive := ri.2 }

/-- `fixedCompareWithInactiveFiltering(exportData)`, with the sheet read
parameterized by its materialized data. -/
def fixedCompareWithInactiveFiltering (activeMembers : List Member)
    (sheetData : List (List Str)) : Except Str Changes :=
  (getGCGMembersWithPersonId sheetData).map (fixedCompareCore activeMembers)

/-- `FAMILY_ROLE_PRIORITY` constant table. -/
def FAMILY_ROLE_PRIORITY : List (Str × Nat) :=
  [(str "Head of Household", 1), (str "Spouse", 2), (str "Adult", 3),
   (str "Child", 4), (str "Unassigned", 5)]

/-- `getFamilyRolePriority(familyRole)`: falsy role or an unknown role
scores 99; otherwise the table value. -/
def getFamilyRolePriority (familyRole : Option Str) : Nat :=
  match familyRole with
  | none => 99
  | some r =>
    if r = [] then 99
    else
      match FAMILY_ROLE_PRIORITY.find? (fun p => p.1 == r) with
      | some p => p.2
      | none => 99

/-- The sort comparator of `selectFamilyRepresentative`: role priority
first (lower wins), then first name (`localeCompare`, modelled as
code-point order). -/
def roleCmpLe (a b : Member) : Bool :=
  let pa := getFamilyRolePriority a.familyRole
  let pb := getFamilyRolePriority b.familyRole
  if pa ≠ pb then pa < pb else strLe a.firstName b.firstName

/-- `selectFamilyRepresentative(familyMembers)`: null for an empty family,
the sole member of a singleton, otherwise the first element of the
(stable) comparator sort. -/
def selectFamilyRepresentative (familyMembers : List Member) : Option Member :=
  match familyMembers with
  | [] => none
  | [m] => some m
  | ms => (List.insertionSort (fun a b => roleCmpLe a b = true) ms).head?

/-- The truthiness-plus-sentinel test on a family id
(`familyId && familyId !== 'null' && familyId !== ''`). -/
def hasFamilyId (fid : Option Str) : Bool :=
  match fid with
  | none => false
  | some s => !s.isEmpty && s != str "null"

/-- The not-in-GCG candidate pool of `calculateFamilyRepresentatives`:
active, non-synthetic members without a group, minus the exclusion set. -/
def notInGCGCandidates (membersWithGCGStatus : List Member) (allExcludedIds : List Str) :
    List Member :=
  membersWithGCGStatus.filter (fun m =>
    !m.gcgStatus.inGroup && m.isActiveMember && !m.isSynthetic &&
      !(hasId allExcludedIds m.personId))

/-- First-occurrence deduplication (JS `Map` keys iterate in insertion
order). -/
def uniqFirst : List Str → List Str → List Str
  | [], _ => []
  | x :: xs, seen => if hasId seen x then uniqFirst xs seen else x :: uniqFirst xs (x :: seen)

/-- Family ids in order of first appearance among the candidates. -/
def familyKeys (cands : List Member) : List Str :=
  uniqFirst ((cands.filter (fun p => hasFamilyId p.familyId)).filterMap (fun p => p.familyId)) []

/-- All candidates grouped under a given family id. -/
def familyGroupOf (cands : List Member) (fid : Str) : List Member :=
  cands.filter (fun p => hasFamilyId p.familyId && p.familyId == some fid)

/-- Individuals without a family pass through with nulled family fields
(`{...person, familyId: null, familyRole: null}`). -/
def clearFamily (p : Member) : Member := { p with familyId := none, familyRole := none }

/-- `calculateFamilyRepresentatives(exportData)`, with the I/O-derived
exclusion set (administrative tags plus inactive-marked sheet rows)
parameterized as `allExcludedIds`. -/
def calculateFamilyRepresentatives (membersWithGCGStatus : List Member)
    (allExcludedIds : List Str) : List Member :=
  let cands := notInGCGCandidates membersWithGCGStatus allExcludedIds
  let reps := (familyKeys cands).filterMap
    (fun fid => selectFamilyRepresentative (familyGroupOf cands fid))
  reps ++ (cands.filter (fun p => !hasFamilyId p.familyId)).map clearFamily

/-- A record pushed onto the not-in-GCG `deletions` list. -/
structure NotInGcgDeletion where
  personId : Str
  firstName : Str
  lastName : Str
  familyId : Option Str
  familyRole : Option Str
  reason : Str
  rowIndex : Nat
deriving DecidableEq

/-- Result of `calculateNotInGCGChangesWithFamilyLogic`. -/
structure NotInGcgChanges where
  additions : List Member
  deletions : List NotInGcgDeletion
  familyGroupsProcessed : Nat
deriving DecidableEq

/-- The reason string attached to a not-in-GCG deletion (source order:
missing from export, then in-GCG, then synthetic, else 'Unknown'). -/
def deletionReason (personInExport : Option Member) : Str :=
  match personInExport with
  | none => str "No longer in active members"
  | some m =>
    if m.gcgStatus.inGroup then
      str "Now in GCG: " ++ (match m.gcgStatus.groupName with | some g => g | none => str "null")
    else if m.isSynthetic then str "Data inconsistency - not in active members export"
    else str "Unknown"

/-- `calculateNotInGCGChangesWithFamilyLogic(exportData)`, with the current
"Not in a GCG" rows and the exclusion set parameterized. -/
def calculateNotInGCGChangesWithFamilyLogic (membersWithGCGStatus : List Member)
    (allExcludedIds : List Str) (currentNotInGCG : List NotGroupedEntry) : NotInGcgChanges :=
  let shouldBe := calculateFamilyRepresentatives membersWithGCGStatus allExcludedIds
  let currentlyListed := (currentNotInGCG.map (fun p => p.personId)).filter (fun id => !id.isEmpty)
  let shouldBeListed := shouldBe.map (fun p => p.personId)
  let additions := shouldBe.filter (fun p => !(hasId currentlyListed p.personId))
  let deletions := currentNotInGCG.filterMap (fun cp =>
    if cp.personId = [] then none
    else if hasId shouldBeListed cp.personId then none
    else
      let personInExport := membersWithGCGStatus.find? (fun m => m.personId == cp.personId)
      some { personId := cp.personId
             firstName := cp.firstName
             lastName := cp.lastName
             familyId := match personInExport with | some m => m.familyId | none => none
             familyRole := match personInExport with | some m => m.familyRole | none => none
             reason := deletionReason personInExport
             rowIndex := cp.rowIndex })
  { additions := additions
    deletions := deletions
    familyGroupsProcessed := shouldBe.length }

/-- Derived form of the additions/updates branch condition: an export
member becomes an addition when both lookups miss. -/
def isAddition (acm : List CurrentMember) (em : Member) : Bool :=
  (lookupById acm em.personId).isNone && (lookupByName acm (lowerStr em.fullName)).isNone

/-- Derived form of the update emitted for an export member, if any. -/
def updateFor (acm : List CurrentMember) (em : Member) : Option UpdateEntry :=
  match lookupById acm em.personId with
  | some cm =>
    if normalizeGroupName (some cm.group) ≠ normalizeGroupName em.gcgStatus.groupName then
      some (.groupUpdate cm em cm.group em.gcgStatus.groupName)
    else none
  | none =>
    match lookupByName acm (lowerStr em.fullName) with
    | some nm => some (.missingPersonId nm em)
    | none => none

/-- Derived form of the removals branch condition. -/
def isRemoval (am : List Member) (ids : List Str) (cm : CurrentMember) : Bool :=
  match cm.personId with
  | some pid => pid ≠ [] && !hasId ids pid && !(am.find? (fun m => m.personId == pid)).isSome
  | none => false

/-- Derived form of the export-missing-but-active branch condition. -/
def isIncons (am : List Member) (ids : List Str) (cm : CurrentMember) : Bool :=
  match cm.personId with
  | some pid => pid ≠ [] && !hasId ids pid && (am.find? (fun m => m.personId == pid)).isSome
  | none => false

/-- The export-member id set used by the removals loop. -/
def exportIdsOf (am : List Member) (cur : List CurrentMember) : List Str :=
  (exportMembersOf am cur).map (fun m => m.personId)

/-- Two family members tying on role priority and first name. -/
def coTieA : Member :=
  { personId := str "10", firstName := str "Amy", lastName := str "Aa",
    fullName := str "Amy Aa", gcgStatus := { inGroup := false, groupName := none },
    isActiveMember := true, isSynthetic := false, familyId := some (str "F2"),
    familyRole := some (str "Adult") }

/-- Same role priority and first name as `coTieA`, different last name. -/
def coTieB : Member :=
  { coTieA with personId := str "11", lastName := str "Bb", fullName := str "Amy Bb" }

/-- Head-of-household family member used in the displaced-representative scenario. -/
def famAmy : Member :=
  { personId := str "1", firstName := str "Amy", lastName := str "Lee",
    fullName := str "Amy Lee", gcgStatus := { inGroup := false, groupName := none },
    isActiveMember := true, isSynthetic := false, familyId := some (str "F1"),
    familyRole := some (str "Head of Household") }

/-- Child family member currently listed on the not-grouped tab. -/
def famZoe : Member :=
  { personId := str "2", firstName := str "Zoe", lastName := str "Lee",
    fullName := str "Zoe Lee", gcgStatus := { inGroup := false, groupName := none },
    isActiveMember := true, isSynthetic := false, familyId := some (str "F1"),
    familyRole := some (str "Child") }

/-- The current "Not in a GCG" row for Zoe. -/
def zoeRow : NotGroupedEntry :=
  { personId := str "2", firstName := str "Zoe", lastName := str "Lee",
    familyName := str "Zoe Lee", familyId := some (str "F1"),
    familyRole := some (str "Child"), rowIndex := 4 }

/-- The deletion record the engine produces for Zoe. -/
def zoeDeletion : NotInGcgDeletion :=
  { personId := str "2", firstName := str "Zoe", lastName := str "Lee",
    familyId := some (str "F1"), familyRole := some (str "Child"),
    reason := str "Unknown", rowIndex := 4 }

/-- A sheet whose data rows include the sentinel group "x" and a normal row. -/
def sheetC8 : List (List Str) :=
  [[str "GCG Members"],
   [str "Person ID", str "First Name", str "Last Name", str "Group", str "Deacon",
    str "Pastor", str "Team", str "Action Steps", str "Assigned to"],
   [str "7", str "Ann", str "Lee", str "x"],
   [str "8", str "Bo", str "Kim", str "Gene Cone"]]

/-- The one member the engine reads from `sheetC8`. -/
def boC8 : CurrentMember :=
  { personId := some (str "8"), firstName := str "Bo", lastName := str "Kim",
    fullName := str "Bo Kim", group := str "Gene Cone", deacon := [], pastor := [],
    team := [], actionSteps := [], assignedTo := [], rowIndex := 4 }

/-- The change set the engine computes from `sheetC8` with an empty export. -/
def chC8 : Changes :=
  { additions := [], updates := [], removals := [boC8], inactiveFiltered := 0,
    exportMissingButActive := [] }

/-- Export member matched only by name in the fallback scenario. -/
def emAnn : Member :=
  { personId := str "5", firstName := str "Ann", lastName := str "Lee",
    fullName := str "Ann Lee", gcgStatus := { inGroup := true, groupName := some (str "Gene Cone") },
    isActiveMember := true, isSynthetic := false, familyId := none, familyRole := none }

/-- Roster row with no person id but a matching full name. -/
def nmRow : CurrentMember :=
  { personId := none, firstName := str "Ann", lastName := str "Lee",
    fullName := str "Ann Lee", group := str "Gene Cone", deacon := [], pastor := [],
    team := [], actionSteps := [], assignedTo := [], rowIndex := 2 }

/-- Roster row whose person id has left the truth data entirely. -/
def row9 : CurrentMember :=
  { personId := some (str "9"), firstName := str "Cy", lastName := str "Doe",
    fullName := str "Cy Doe", group := str "Gene Cone", deacon := [], pastor := [],
    team := [], actionSteps := [], assignedTo := [], rowIndex := 2 }

/-- Export member with a group, used for the partition witness. -/
def gcBo : Member :=
  { personId := str "8", firstName := str "Bo", lastName := str "Kim",
    fullName := str "Bo Kim", gcgStatus := { inGroup := true, groupName := some (str "Gene Cone") },
    isActiveMember := true, isSynthetic := false, familyId := none, familyRole := none }

theorem hasId_iff (ids : List Str) (pid : Str) : hasId ids pid = true ↔ pid ∈ ids := by
  simp only [hasId, List.any_eq_true, beq_iff_eq]
  exact ⟨fun ⟨x, hx, he⟩ => he ▸ hx, fun h => ⟨pid, h, rfl⟩⟩

theorem findLastP_mem {p : α → Bool} {l : List α} {x : α} (h : findLastP p l = some x) :
    x ∈ l ∧ p x = true := by
  unfold findLastP at h
  exact ⟨List.mem_reverse.mp (List.mem_of_find?_eq_some h), List.find?_some h⟩

theorem lookupById_some {l : List CurrentMember} {pid : Str} {cm : CurrentMember}
    (h : lookupById l pid = some cm) : cm ∈ l ∧ cm.personId = some pid ∧ pid ≠ [] := by
  unfold lookupById at h
  split at h
  · exact absurd h (by simp)
  · rename_i hne
    obtain ⟨hm, hp⟩ := findLastP_mem h
    exact ⟨hm, by simpa using hp, hne⟩

theorem lookupByName_some {l : List CurrentMember} {n : Str} {cm : CurrentMember}
    (h : lookupByName l n = some cm) :
    cm ∈ l ∧ jsTruthyId cm.personId = false ∧ lowerStr cm.fullName = n := by
  unfold lookupByName at h
  obtain ⟨hm, hp⟩ := findLastP_mem h
  simp only [Bool.and_eq_true, Bool.not_eq_true', beq_iff_eq] at hp
  exact ⟨hm, hp.1, hp.2⟩

theorem processExports_eq (acm : List CurrentMember) (ems : List Member) :
    processExports acm ems = (ems.filter (isAddition acm), ems.filterMap (updateFor acm)) := by
  induction ems with
  | nil => rfl
  | cons em rest ih =>
    simp only [processExports, ih, List.filter_cons, List.filterMap_cons]
    cases hid : lookupById acm em.personId with
    | some cm =>
      have ha : isAddition acm em = false := by simp [isAddition, hid]
      have hu : updateFor acm em =
          (if normalizeGroupName (some cm.group) ≠ normalizeGroupName em.gcgStatus.groupName then
            some (.groupUpdate cm em cm.group em.gcgStatus.groupName)
          else none) := by simp [updateFor, hid]
      by_cases hne :
          normalizeGroupName (some cm.group) ≠ normalizeGroupName em.gcgStatus.groupName
      · simp [ha, hu, hne]
      · simp [ha, hu, hne]
    | none =>
      cases hn : lookupByName acm (lowerStr em.fullName) with
      | some nm =>
        have ha : isAddition acm em = false := by simp [isAddition, hid, hn]
        have hu : updateFor acm em = some (.missingPersonId nm em) := by
          simp [updateFor, hid, hn]
        simp [ha, hu]
      | none =>
        have ha : isAddition acm em = true := by simp [isAddition, hid, hn]
        have hu : updateFor acm em = none := by simp [updateFor, hid, hn]
        simp [ha, hu]

theorem processRemovals_eq (am : List Member) (ids : List Str) (acm : List CurrentMember) :
    processRemovals am ids acm = (acm.filter (isRemoval am ids), acm.filter (isIncons am ids)) := by
  induction acm with
  | nil => rfl
  | cons cm rest ih =>
    simp only [processRemovals, ih, List.filter_cons]
    cases hp : cm.personId with
    | some pid =>
      have hr : isRemoval am ids cm =
          (pid ≠ [] && !hasId ids pid && !(am.find? (fun m => m.personId == pid)).isSome) := by
        simp [isRemoval, hp]
      have hi : isIncons am ids cm =
          (pid ≠ [] && !hasId ids pid && (am.find? (fun m => m.personId == pid)).isSome) := by
        simp [isIncons, hp]
      by_cases hcond : pid ≠ [] ∧ ¬ hasId ids pid = true
      · by_cases hfind : (am.find? (fun m => m.personId == pid)).isSome
        · simp [hr, hi, hcond, hfind, hcond.1, hcond.2]
        · simp [hr, hi, hcond, hfind, hcond.1, hcond.2]
      · have h1 : isRemoval am ids cm = false := by
          rw [hr]
          rcases not_and_or.mp hcond with h | h
          · simp [not_not.mp (by simpa using h)]
          · simp [not_not.mp h]
        have h2 : isIncons am ids cm = false := by
          rw [hi]
          rcases not_and_or.mp hcond with h | h
          · simp [not_not.mp (by simpa using h)]
          · simp [not_not.mp h]
        simp only [h1, h2]
        rw [if_neg hcond]
        simp
    | none =>
      have hr : isRemoval am ids cm = false := by simp [isRemoval, hp]
      have hi : isIncons am ids cm = false := by simp [isIncons, hp]
      simp [hr, hi]

theorem mem_additions_iff (am : List Member) (cur : List CurrentMember) (a : Member) :
    a ∈ (fixedCompareCore am cur).additions ↔
      a ∈ exportMembersOf am cur ∧ isAddition (activeCurrentOf cur) a = true := by
  simp only [fixedCompareCore, processExports_eq, List.mem_filter]

theorem mem_updates_iff (am : List Member) (cur : List CurrentMember) (u : UpdateEntry) :
    u ∈ (fixedCompareCore am cur).updates ↔
      ∃ em ∈ exportMembersOf am cur, updateFor (activeCurrentOf cur) em = some u := by
  simp only [fixedCompareCore, processExports_eq, List.mem_filterMap]

theorem mem_removals_iff (am : List Member) (cur : List CurrentMember) (c : CurrentMember) :
    c ∈ (fixedCompareCore am cur).removals ↔
      c ∈ activeCurrentOf cur ∧ isRemoval am (exportIdsOf am cur) c = true := by
  simp only [fixedCompareCore, processRemovals_eq, List.mem_filter, exportIdsOf]

theorem mem_incons_iff (am : List Member) (cur : List CurrentMember) (c : CurrentMember) :
    c ∈ (fixedCompareCore am cur).exportMissingButActive ↔
      c ∈ activeCurrentOf cur ∧ isIncons am (exportIdsOf am cur) c = true := by
  simp only [fixedCompareCore, processRemovals_eq, List.mem_filter, exportIdsOf]

theorem updateFor_export {acm : List CurrentMember} {em : Member} {u : UpdateEntry}
    (h : updateFor acm em = some u) : updateExportOf u = em := by
  unfold updateFor at h
  split at h
  · split at h
    · injection h with h1
      subst h1
      rfl
    · cases h
  · split at h
    · injection h with h1
      subst h1
      rfl
    · cases h

theorem updateFor_of_id {acm : List CurrentMember} {em : Member} {cm : CurrentMember}
    (hid : lookupById acm em.personId = some cm) :
    updateFor acm em =
      (if normalizeGroupName (some cm.group) ≠ normalizeGroupName em.gcgStatus.groupName then
        some (.groupUpdate cm em cm.group em.gcgStatus.groupName)
      else none) := by
  unfold updateFor
  rw [hid]

theorem updateFor_of_none {acm : List CurrentMember} {em : Member}
    (h1 : lookupById acm em.personId = none)
    (h2 : lookupByName acm (lowerStr em.fullName) = none) :
    updateFor acm em = none := by
  unfold updateFor
  rw [h1, h2]

theorem updateFor_cases {acm : List CurrentMember} {em : Member} {u : UpdateEntry}
    (h : updateFor acm em = some u) :
    (∃ cm, lookupById acm em.personId = some cm ∧
       u = .groupUpdate cm em cm.group em.gcgStatus.groupName ∧
       normalizeGroupName (some cm.group) ≠ normalizeGroupName em.gcgStatus.groupName) ∨
    (∃ nm, lookupById acm em.personId = none ∧
       lookupByName acm (lowerStr em.fullName) = some nm ∧ u = .missingPersonId nm em) := by
  unfold updateFor at h
  split at h
  · rename_i cm hid
    split at h
    · rename_i hne
      injection h with h1
      exact Or.inl ⟨cm, hid, h1.symm, hne⟩
    · cases h
  · rename_i hid
    split at h
    · rename_i nm hn
      injection h with h1
      exact Or.inr ⟨nm, hid, hn, h1.symm⟩
    · cases h

theorem isAddition_iff {acm : List CurrentMember} {em : Member} :
    isAddition acm em = true ↔
      lookupById acm em.personId = none ∧ lookupByName acm (lowerStr em.fullName) = none := by
  simp [isAddition, Option.isNone_iff_eq_none]

theorem find?_isSome_iff (p : α → Bool) (l : List α) :
    (l.find? p).isSome = true ↔ ∃ x ∈ l, p x = true := by
  induction l with
  | nil => simp
  | cons a rest ih =>
    by_cases h : p a
    · simp [List.find?_cons, h]
    · simp only [List.find?_cons, h]
      simp only [ih, List.mem_cons]
      constructor
      · rintro ⟨x, hx, hp⟩
        exact ⟨x, Or.inr hx, hp⟩
      · rintro ⟨x, rfl | hx, hp⟩
        · exact absurd hp (by simp [h])
        · exact ⟨x, hx, hp⟩

theorem mem_exportIds {am : List Member} {cur : List CurrentMember} {em : Member}
    (h : em ∈ exportMembersOf am cur) : hasId (exportIdsOf am cur) em.personId = true := by
  rw [hasId_iff]
  exact List.mem_map.mpr ⟨em, h, rfl⟩

theorem isRemoval_iff {am : List Member} {ids : List Str} {c : CurrentMember} :
    isRemoval am ids c = true ↔
      ∃ pid, c.personId = some pid ∧ pid ≠ [] ∧ hasId ids pid = false ∧
        ¬∃ m ∈ am, m.personId = pid := by
  unfold isRemoval
  cases hp : c.personId with
  | none => simp
  | some pid =>
    simp only [Bool.and_eq_true, Bool.not_eq_true', decide_eq_true_eq, Option.some.injEq]
    constructor
    · rintro ⟨⟨h1, h2⟩, h3⟩
      refine ⟨pid, rfl, h1, h2, ?_⟩
      intro hex
      obtain ⟨m, hm, hpid⟩ := hex
      have : (am.find? (fun m => m.personId == pid)).isSome = true :=
        (find?_isSome_iff _ _).mpr ⟨m, hm, by simp [hpid]⟩
      rw [this] at h3
      cases h3
    · rintro ⟨pid2, heq, h1, h2, h3⟩
      subst heq
      refine ⟨⟨h1, h2⟩, ?_⟩
      cases hfind : (am.find? (fun m => m.personId == pid)).isSome with
      | false => rfl
      | true =>
        obtain ⟨m, hm, hpm⟩ := (find?_isSome_iff _ _).mp hfind
        exact absurd ⟨m, hm, by simpa using hpm⟩ h3

theorem isIncons_iff {am : List Member} {ids : List Str} {c : CurrentMember} :
    isIncons am ids c = true ↔
      ∃ pid, c.personId = some pid ∧ pid ≠ [] ∧ hasId ids pid = false ∧
        ∃ m ∈ am, m.personId = pid := by
  unfold isIncons
  cases hp : c.personId with
  | none => simp
  | some pid =>
    simp only [Bool.and_eq_true, Bool.not_eq_true', decide_eq_true_eq, Option.some.injEq]
    constructor
    · rintro ⟨⟨h1, h2⟩, h3⟩
      obtain ⟨m, hm, hpm⟩ := (find?_isSome_iff _ _).mp h3
      exact ⟨pid, rfl, h1, h2, m, hm, by simpa using hpm⟩
    · rintro ⟨pid2, heq, h1, h2, m, hm, hpm⟩
      subst heq
      exact ⟨⟨h1, h2⟩, (find?_isSome_iff _ _).mpr ⟨m, hm, by simp [hpm]⟩⟩

/-- C1: for every truth-data member with a group assignment that is not
excluded for inactivity: when no roster entry matches by person id but the
name-fallback map has a hit, the engine emits a missing-identifier update
and no addition; when neither map has a hit it emits an addition; and when
an identifier match exists the identifier match wins, suppressing both the
addition and any name-based update. -/
theorem identity_matching_C1 (am : List Member) (cur : List CurrentMember) (em : Member)
    (hmem : em ∈ exportMembersOf am cur) :
    (∀ nm, lookupById (activeCurrentOf cur) em.personId = none →
      lookupByName (activeCurrentOf cur) (lowerStr em.fullName) = some nm →
      UpdateEntry.missingPersonId nm em ∈ (fixedCompareCore am cur).updates ∧
        em ∉ (fixedCompareCore am cur).additions) ∧
    (lookupById (activeCurrentOf cur) em.personId = none →
      lookupByName (activeCurrentOf cur) (lowerStr em.fullName) = none →
      em ∈ (fixedCompareCore am cur).additions) ∧
    (∀ cm, lookupById (activeCurrentOf cur) em.personId = some cm →
      em ∉ (fixedCompareCore am cur).additions ∧
        ∀ nm, UpdateEntry.missingPersonId nm em ∉ (fixedCompareCore am cur).updates) := by
  refine ⟨?_, ?_, ?_⟩
  · intro nm h1 h2
    constructor
    · exact (mem_updates_iff am cur _).mpr ⟨em, hmem, by simp [updateFor, h1, h2]⟩
    · intro hadd
      have := ((mem_additions_iff am cur em).mp hadd).2
      simp [isAddition, h1, h2] at this
  · intro h1 h2
    exact (mem_additions_iff am cur em).mpr ⟨hmem, by simp [isAddition, h1, h2]⟩
  · intro cm hid
    constructor
    · intro hadd
      have := ((mem_additions_iff am cur em).mp hadd).2
      simp [isAddition, hid] at this
    · intro nm hu
      obtain ⟨em2, hm2, he⟩ := (mem_updates_iff am cur _).mp hu
      have hexp := updateFor_export he
      simp only [updateExportOf] at hexp
      subst hexp
      rw [updateFor_of_id hid] at he
      by_cases hne :
          normalizeGroupName (some cm.group) ≠ normalizeGroupName em.gcgStatus.groupName
      · rw [if_pos hne] at he
        simp at he
      · rw [if_neg hne] at he
        simp at he

theorem identity_matching_C1_witness :
    UpdateEntry.missingPersonId nmRow emAnn ∈ (fixedCompareCore [emAnn] [nmRow]).updates ∧
    emAnn ∉ (fixedCompareCore [emAnn] [nmRow]).additions :=
  (identity_matching_C1 [emAnn] [nmRow] emAnn (by decide)).1 nmRow (by decide) (by decide)

/-- C6: the change-set categories are mutually exclusive: no compared
export member is both an addition and the subject of an update; no roster
entry is in two of updates, removals and exportMissingButActive; and under
unique person ids no person id appears in both additions and updates. -/
theorem partition_exclusive_C6 (am : List Member) (cur : List CurrentMember) :
    (∀ em ∈ exportMembersOf am cur,
      ¬(em ∈ (fixedCompareCore am cur).additions ∧
        ∃ u ∈ (fixedCompareCore am cur).updates, updateExportOf u = em)) ∧
    (∀ c : CurrentMember,
      ¬((∃ u ∈ (fixedCompareCore am cur).updates, updateCurrentOf u = c) ∧
          c ∈ (fixedCompareCore am cur).removals) ∧
      ¬((∃ u ∈ (fixedCompareCore am cur).updates, updateCurrentOf u = c) ∧
          c ∈ (fixedCompareCore am cur).exportMissingButActive) ∧
      ¬(c ∈ (fixedCompareCore am cur).removals ∧
          c ∈ (fixedCompareCore am cur).exportMissingButActive)) ∧
    ((∀ e1 ∈ exportMembersOf am cur, ∀ e2 ∈ exportMembersOf am cur,
        e1.personId = e2.personId → e1 = e2) →
      ∀ pid, ¬((∃ e ∈ (fixedCompareCore am cur).additions, e.personId = pid) ∧
        ∃ u ∈ (fixedCompareCore am cur).updates, (updateExportOf u).personId = pid)) := by
  have hAddUpd : ∀ em : Member, em ∈ (fixedCompareCore am cur).additions →
      ∀ u ∈ (fixedCompareCore am cur).updates, updateExportOf u ≠ em := by
    intro em hadd u hu heq
    obtain ⟨hm, hA⟩ := (mem_additions_iff am cur em).mp hadd
    obtain ⟨h1, h2⟩ := isAddition_iff.mp hA
    obtain ⟨em2, hm2, hF⟩ := (mem_updates_iff am cur u).mp hu
    have : em2 = em := by rw [← updateFor_export hF, heq]
    subst this
    rw [updateFor_of_none h1 h2] at hF
    cases hF
  have hUpdCur : ∀ c : CurrentMember, ∀ u ∈ (fixedCompareCore am cur).updates,
      updateCurrentOf u = c →
      ∀ pid, c.personId = some pid → pid ≠ [] → hasId (exportIdsOf am cur) pid = false → False := by
    intro c u hu hcur pid hpid hne hid
    obtain ⟨em, hm, hF⟩ := (mem_updates_iff am cur u).mp hu
    rcases updateFor_cases hF with ⟨cm, hlook, rfl, _⟩ | ⟨nm, _, hlook, rfl⟩
    · simp only [updateCurrentOf] at hcur
      subst hcur
      obtain ⟨_, hcm, _⟩ := lookupById_some hlook
      rw [hcm] at hpid
      injection hpid with hpid
      subst hpid
      rw [mem_exportIds hm] at hid
      cases hid
    · simp only [updateCurrentOf] at hcur
      subst hcur
      obtain ⟨_, htruthy, _⟩ := lookupByName_some hlook
      rw [hpid] at htruthy
      have hpe : pid.isEmpty = true := by simpa [jsTruthyId] using htruthy
      exact hne (List.isEmpty_iff.mp hpe)
  refine ⟨?_, ?_, ?_⟩
  · rintro em _ ⟨hadd, u, hu, heq⟩
    exact hAddUpd em hadd u hu heq
  · intro c
    refine ⟨?_, ?_, ?_⟩
    · rintro ⟨⟨u, hu, hcur⟩, hrem⟩
      obtain ⟨_, hR⟩ := (mem_removals_iff am cur c).mp hrem
      obtain ⟨pid, hpid, hne, hid, _⟩ := isRemoval_iff.mp hR
      exact hUpdCur c u hu hcur pid hpid hne hid
    · rintro ⟨⟨u, hu, hcur⟩, hinc⟩
      obtain ⟨_, hI⟩ := (mem_incons_iff am cur c).mp hinc
      obtain ⟨pid, hpid, hne, hid, _⟩ := isIncons_iff.mp hI
      exact hUpdCur c u hu hcur pid hpid hne hid
    · rintro ⟨hrem, hinc⟩
      obtain ⟨_, hR⟩ := (mem_removals_iff am cur c).mp hrem
      obtain ⟨_, hI⟩ := (mem_incons_iff am cur c).mp hinc
      obtain ⟨pid, hpid, _, _, hno⟩ := isRemoval_iff.mp hR
      obtain ⟨pid2, hpid2, _, _, hyes⟩ := isIncons_iff.mp hI
      rw [hpid] at hpid2
      injection hpid2 with hpid2
      subst hpid2
      exact hno hyes
  · rintro hinj pid ⟨⟨e, hadd, hpe⟩, u, hu, hpu⟩
    obtain ⟨hm1, _⟩ := (mem_additions_iff am cur e).mp hadd
    obtain ⟨em2, hm2, hF⟩ := (mem_updates_iff am cur u).mp hu
    have hexp := updateFor_export hF
    have : e = em2 := by
      apply hinj e hm1 em2 hm2
      rw [hpe, ← hpu, hexp]
    subst this
    exact hAddUpd e hadd u hu (by rw [hexp])

theorem partition_exclusive_C6_witness :
    ¬(gcBo ∈ (fixedCompareCore [gcBo] []).additions ∧
      ∃ u ∈ (fixedCompareCore [gcBo] []).updates, updateExportOf u = gcBo) :=
  (partition_exclusive_C6 [gcBo] []).1 gcBo (by decide)

/-- C2: for a compared roster entry whose person id has no truth-data group
assignment (over populations in which every non-active member is a
synthetic, in-group record, as the parsers produce), the engine emits
exportMissingButActive (the inconsistent-export-only category) exactly when
the person id still exists in the full unfiltered member population as
active, emits a removal otherwise, and never emits both. -/
theorem export_only_vs_removal_C2 (am : List Member) (cur : List CurrentMember)
    (c : CurrentMember) (pid : Str)
    (hpop : ∀ m ∈ am, m.isActiveMember = false → m.gcgStatus.inGroup = true)
    (hc : c ∈ activeCurrentOf cur)
    (hid : c.personId = some pid) (hne : pid ≠ [])
    (hnoassign : ∀ m ∈ am, m.personId = pid → m.gcgStatus.inGroup = false) :
    (c ∈ (fixedCompareCore am cur).exportMissingButActive ↔
      ∃ m ∈ am, m.personId = pid ∧ m.isActiveMember = true) ∧
    (c ∈ (fixedCompareCore am cur).removals ↔
      ¬∃ m ∈ am, m.personId = pid ∧ m.isActiveMember = true) ∧
    ¬(c ∈ (fixedCompareCore am cur).removals ∧
      c ∈ (fixedCompareCore am cur).exportMissingButActive) := by
  have hids : hasId (exportIdsOf am cur) pid = false := by
    cases h : hasId (exportIdsOf am cur) pid with
    | false => rfl
    | true =>
      obtain ⟨em, hm, hpe⟩ := List.mem_map.mp (hasId_iff _ _ |>.mp h)
      have hgrp : em.gcgStatus.inGroup = true := by
        have := List.mem_filter.mp hm
        simpa [Bool.and_eq_true] using (Bool.and_eq_true _ _ |>.mp this.2).1
      exact absurd hgrp (by simp [hnoassign em (List.mem_filter.mp hm).1 hpe])
  have hpresent : (∃ m ∈ am, m.personId = pid) ↔ (∃ m ∈ am, m.personId = pid ∧ m.isActiveMember = true) := by
    constructor
    · rintro ⟨m, hm, hpm⟩
      refine ⟨m, hm, hpm, ?_⟩
      cases hact : m.isActiveMember with
      | true => rfl
      | false => exact absurd (hpop m hm hact) (by simp [hnoassign m hm hpm])
    · rintro ⟨m, hm, hpm, _⟩
      exact ⟨m, hm, hpm⟩
  refine ⟨?_, ?_, ?_⟩
  · rw [mem_incons_iff]
    constructor
    · rintro ⟨_, hI⟩
      obtain ⟨pid2, hpid2, _, _, hex⟩ := isIncons_iff.mp hI
      rw [hid] at hpid2
      injection hpid2 with h
      subst h
      exact hpresent.mp hex
    · intro hex
      refine ⟨hc, isIncons_iff.mpr ⟨pid, hid, hne, hids, hpresent.mpr hex⟩⟩
  · rw [mem_removals_iff]
    constructor
    · rintro ⟨_, hR⟩ hex
      obtain ⟨pid2, hpid2, _, _, hno⟩ := isRemoval_iff.mp hR
      rw [hid] at hpid2
      injection hpid2 with h
      subst h
      exact hno (hpresent.mpr hex)
    · intro hnex
      refine ⟨hc, isRemoval_iff.mpr ⟨pid, hid, hne, hids, ?_⟩⟩
      intro hex
      exact hnex (hpresent.mp hex)
  · rintro ⟨hrem, hinc⟩
    obtain ⟨_, hR⟩ := (mem_removals_iff am cur c).mp hrem
    obtain ⟨_, hI⟩ := (mem_incons_iff am cur c).mp hinc
    obtain ⟨pidA, hA, _, _, hno⟩ := isRemoval_iff.mp hR
    obtain ⟨pidB, hB, _, _, hyes⟩ := isIncons_iff.mp hI
    rw [hA] at hB
    injection hB with h
    subst h
    exact hno hyes

theorem export_only_vs_removal_C2_witness :
    (row9 ∈ (fixedCompareCore [famAmy] [row9]).exportMissingButActive ↔
      ∃ m ∈ [famAmy], m.personId = str "9" ∧ m.isActiveMember = true) ∧
    (row9 ∈ (fixedCompareCore [famAmy] [row9]).removals ↔
      ¬∃ m ∈ [famAmy], m.personId = str "9" ∧ m.isActiveMember = true) ∧
    ¬(row9 ∈ (fixedCompareCore [famAmy] [row9]).removals ∧
      row9 ∈ (fixedCompareCore [famAmy] [row9]).exportMissingButActive) :=
  export_only_vs_removal_C2 [famAmy] [row9] row9 (str "9") (by decide) (by decide)
    (by decide) (by decide) (by decide)

theorem notAmp_amp : notAmp '&' = false := by simp [notAmp]

theorem isWs_amp : isWs '&' = false := by decide

theorem notAmp_of_ne {c : Char} (h : c ≠ '&') : notAmp c = true := by
  simp [notAmp, h]

theorem dropWhile_append_block {q : Char → Bool} {c : Char} (hc : q c = false)
    (x z : Str) : (x ++ c :: z).dropWhile q = x.dropWhile q ++ c :: z := by
  rw [List.dropWhile_append]
  by_cases h : (x.dropWhile q).isEmpty = true
  · rw [if_pos h, List.isEmpty_iff.mp h]
    simp [List.dropWhile_cons, hc]
  · rw [if_neg h]

theorem takeWhile_append_all {p : Char → Bool} {x : Str} (h : ∀ e ∈ x, p e = true)
    (z : Str) : (x ++ z).takeWhile p = x ++ z.takeWhile p := by
  rw [List.takeWhile_append]
  rw [if_pos]
  rw [List.takeWhile_eq_self_iff.mpr (by simpa using h)]

theorem takeWhile_append_stop {p : Char → Bool} {x : Str} {c : Char} (h : ∀ e ∈ x, p e = true)
    (hc : p c = false) (z : Str) : (x ++ c :: z).takeWhile p = x := by
  rw [takeWhile_append_all h]
  rw [List.takeWhile_cons, hc]
  simp

theorem rdropWs_append_block {c : Char} (hc : isWs c = false) (x z : Str) :
    rdropWs (x ++ c :: z) = x ++ c :: rdropWs z := by
  unfold rdropWs
  have h1 : (x ++ c :: z).reverse = z.reverse ++ c :: x.reverse := by simp
  rw [h1, dropWhile_append_block hc]
  simp

theorem dropWhile_idem {q : Char → Bool} (x : Str) :
    (x.dropWhile q).dropWhile q = x.dropWhile q := by
  induction x with
  | nil => rfl
  | cons c t ih =>
    rw [List.dropWhile_cons]
    by_cases h : q c = true
    · rw [if_pos h]
      exact ih
    · rw [if_neg h, List.dropWhile_cons, if_neg h]

theorem rdropWs_idem (x : Str) : rdropWs (rdropWs x) = rdropWs x := by
  unfold rdropWs
  rw [List.reverse_reverse, dropWhile_idem]

theorem rdropWs_cons (c : Char) (t : Str) :
    rdropWs (c :: t) =
      if rdropWs t = [] then (if isWs c then [] else [c]) else c :: rdropWs t := by
  unfold rdropWs
  rw [show (c :: t).reverse = t.reverse ++ [c] from by simp]
  rw [List.dropWhile_append]
  by_cases h : (t.reverse.dropWhile isWs).isEmpty = true
  · rw [if_pos h]
    rw [if_pos (by simp [List.isEmpty_iff.mp h])]
    by_cases hw : isWs c = true
    · simp [List.dropWhile_cons, hw]
    · simp [List.dropWhile_cons, hw]
  · rw [if_neg h]
    rw [if_neg (by simp [List.isEmpty_iff] at h; simp [h])]
    simp

theorem tc_ldrop (x : Str) : trimChars (x.dropWhile isWs) = trimChars x := by
  induction x with
  | nil => rfl
  | cons c t ih =>
    by_cases hw : isWs c = true
    · rw [List.dropWhile_cons, if_pos hw, ih]
      unfold trimChars
      rw [rdropWs_cons]
      by_cases h0 : rdropWs t = []
      · rw [if_pos h0, if_pos hw, h0]
      · rw [if_neg h0, List.dropWhile_cons, if_pos hw]
    · rw [List.dropWhile_cons, if_neg hw]

theorem tc_rdrop (x : Str) : trimChars (rdropWs x) = trimChars x := by
  unfold trimChars
  rw [rdropWs_idem]

theorem trim_idem (x : Str) : trimChars (trimChars x) = trimChars x := by
  conv_lhs => rw [show trimChars x = (rdropWs x).dropWhile isWs from rfl]
  rw [tc_ldrop, tc_rdrop]

theorem mem_rdropWs {e : Char} {x : Str} (h : e ∈ rdropWs x) : e ∈ x := by
  unfold rdropWs at h
  rw [List.mem_reverse] at h
  exact List.mem_reverse.mp ((List.dropWhile_sublist isWs).mem h)

theorem mem_trimChars {e : Char} {x : Str} (h : e ∈ trimChars x) : e ∈ x := by
  unfold trimChars at h
  exact mem_rdropWs ((List.dropWhile_sublist isWs).mem h)

theorem amp_split {l : Str} (h : '&' ∈ l) :
    ∃ b, l = l.takeWhile notAmp ++ '&' :: b := by
  induction l with
  | nil => cases h
  | cons c t ih =>
    by_cases hc : c = '&'
    · subst hc
      exact ⟨t, by simp [List.takeWhile_cons, notAmp]⟩
    · have hct : '&' ∈ t := by
        rcases List.mem_cons.mp h with h1 | h1
        · exact absurd h1.symm hc
        · exact h1
      obtain ⟨b, hb⟩ := ih hct
      refine ⟨b, ?_⟩
      rw [List.takeWhile_cons, if_pos (notAmp_of_ne hc)]
      rw [List.cons_append]
      exact congrArg (c :: ·) hb

theorem absorb_trim (l : Str) :
    trimChars ((trimChars l).takeWhile notAmp) = trimChars (l.takeWhile notAmp) := by
  by_cases hin : '&' ∈ l
  · obtain ⟨b, hb⟩ := amp_split hin
    set a := l.takeWhile notAmp with ha
    have hall : ∀ e ∈ a, notAmp e = true := fun e he => List.mem_takeWhile_imp he
    have hall2 : ∀ e ∈ a.dropWhile isWs, notAmp e = true :=
      fun e he => hall e ((List.dropWhile_sublist isWs).mem he)
    have htrim : trimChars l = a.dropWhile isWs ++ '&' :: rdropWs b := by
      rw [hb]
      unfold trimChars
      rw [rdropWs_append_block isWs_amp, dropWhile_append_block isWs_amp]
    rw [htrim]
    rw [takeWhile_append_stop hall2 notAmp_amp]
    rw [tc_ldrop]
  · have hall : ∀ e ∈ l, notAmp e = true :=
      fun e he => notAmp_of_ne (fun hq => hin (hq ▸ he))
    have hall2 : ∀ e ∈ trimChars l, notAmp e = true :=
      fun e he => hall e (mem_trimChars he)
    rw [List.takeWhile_eq_self_iff.mpr (by simpa using hall2)]
    rw [List.takeWhile_eq_self_iff.mpr (by simpa using hall)]
    exact trim_idem l

theorem norm_eq_trim_take (x : Str) :
    normalizeGroupName (some x) = trimChars (x.takeWhile notAmp) := by
  by_cases hx : x = []
  · subst hx
    rfl
  · rw [show normalizeGroupName (some x) =
        (if x = [] then [] else trimChars ((trimChars x).takeWhile notAmp)) from rfl]
    rw [if_neg hx]
    exact absorb_trim x

theorem trim_append_space (L : Str) : trimChars (L ++ [' ']) = trimChars L := by
  unfold trimChars
  congr 1
  unfold rdropWs
  rw [show (L ++ [' ']).reverse = ' ' :: L.reverse from by simp]
  rw [List.dropWhile_cons]
  rw [if_pos (by decide)]

theorem normalize_co_leader (L C : Str) :
    normalizeGroupName (some (L ++ str " & " ++ C)) = normalizeGroupName (some L) := by
  rw [norm_eq_trim_take, norm_eq_trim_take]
  by_cases hin : '&' ∈ L
  · obtain ⟨b, hb⟩ := amp_split hin
    set a := L.takeWhile notAmp with ha
    have hall : ∀ e ∈ a, notAmp e = true := fun e he => List.mem_takeWhile_imp he
    rw [hb]
    rw [show (a ++ '&' :: b) ++ str " & " ++ C = a ++ '&' :: (b ++ str " & " ++ C) from by
      simp [List.append_assoc]]
    rw [takeWhile_append_stop hall notAmp_amp]
  · have hall : ∀ e ∈ L, notAmp e = true :=
      fun e he => notAmp_of_ne (fun hq => hin (hq ▸ he))
    rw [List.append_assoc]
    rw [takeWhile_append_all hall]
    rw [show (str " & " ++ C).takeWhile notAmp = [' '] from by
      simp [str, List.takeWhile_cons, notAmp]]
    rw [List.takeWhile_eq_self_iff.mpr (by simpa using hall)]
    exact trim_append_space L

/-- C3: normalizeGroupName trims, splits at the first co-leader delimiter
and returns the trimmed left segment, so a label with a co-leader suffix
normalizes to the same key as the bare leader; null or empty input yields
the empty string; and the engine emits no update for a person whose
truth-data group label and roster group label differ only in co-leader
presence. -/
theorem group_normalization_C3 :
    (∀ L C : Str,
      normalizeGroupName (some (L ++ str " & " ++ C)) = normalizeGroupName (some L)) ∧
    (normalizeGroupName none = [] ∧ normalizeGroupName (some []) = []) ∧
    (∀ (am : List Member) (cur : List CurrentMember) (em : Member) (cm : CurrentMember)
        (L C : Str),
      em ∈ exportMembersOf am cur →
      lookupById (activeCurrentOf cur) em.personId = some cm →
      ((cm.group = L ∧ em.gcgStatus.groupName = some (L ++ str " & " ++ C)) ∨
        (cm.group = L ++ str " & " ++ C ∧ em.gcgStatus.groupName = some L)) →
      ∀ u ∈ (fixedCompareCore am cur).updates, updateExportOf u ≠ em) := by
  refine ⟨normalize_co_leader, ⟨rfl, rfl⟩, ?_⟩
  intro am cur em cm L C hmem hid hco u hu heq
  have hnorm : normalizeGroupName (some cm.group) = normalizeGroupName em.gcgStatus.groupName := by
    rcases hco with ⟨h1, h2⟩ | ⟨h1, h2⟩
    · rw [h1, h2]
      exact (normalize_co_leader L C).symm
    · rw [h1, h2]
      exact normalize_co_leader L C
  obtain ⟨em2, hm2, hF⟩ := (mem_updates_iff am cur u).mp hu
  have : em2 = em := by rw [← updateFor_export hF, heq]
  subst this
  rcases updateFor_cases hF with ⟨cm2, hlook, _, hne⟩ | ⟨nm, hlook, _, _⟩
  · rw [hid] at hlook
    injection hlook with h
    subst h
    exact hne hnorm
  · rw [hid] at hlook
    cases hlook

theorem group_normalization_C3_witness :
    normalizeGroupName (some (str "Ann Lee" ++ str " & " ++ str "Bo Kim")) =
      normalizeGroupName (some (str "Ann Lee")) :=
  group_normalization_C3.1 (str "Ann Lee") (str "Bo Kim")

theorem charToNat_inj {c d : Char} (h : c.toNat = d.toNat) : c = d := by
  have h2 := Char.ofNat_toNat c
  rw [h, Char.ofNat_toNat] at h2
  exact h2.symm

theorem strLe_refl (a : Str) : strLe a a = true := by
  induction a with
  | nil => rfl
  | cons c t ih =>
    simp only [strLe, Nat.lt_irrefl, if_false]
    exact ih

theorem strLe_total (a b : Str) : strLe a b = true ∨ strLe b a = true := by
  induction a generalizing b with
  | nil => exact Or.inl rfl
  | cons c as ih =>
    cases b with
    | nil => exact Or.inr rfl
    | cons d bs =>
      simp only [strLe]
      rcases Nat.lt_trichotomy c.toNat d.toNat with h | h | h
      · left
        rw [if_pos h]
      · rw [h]
        simp only [Nat.lt_irrefl, if_false]
        exact ih bs
      · right
        rw [if_pos h]

theorem strLe_trans : ∀ {a b c : Str}, strLe a b = true → strLe b c = true → strLe a c = true := by
  intro a
  induction a with
  | nil => intro b c _ _; rfl
  | cons x as ih =>
    intro b c hab hbc
    cases b with
    | nil => simp [strLe] at hab
    | cons y bs =>
      cases c with
      | nil => simp [strLe] at hbc
      | cons z cs =>
        simp only [strLe] at hab hbc ⊢
        rcases Nat.lt_trichotomy x.toNat y.toNat with h1 | h1 | h1
        · rcases Nat.lt_trichotomy y.toNat z.toNat with h2 | h2 | h2
          · rw [if_pos (by omega)]
          · rw [if_pos (by omega)]
          · rw [if_neg (by omega), if_pos h2] at hbc
            cases hbc
        · rcases Nat.lt_trichotomy y.toNat z.toNat with h2 | h2 | h2
          · rw [if_pos (by omega)]
          · rw [if_neg (by omega), if_neg (by omega)]
            rw [h1] at hab
            simp only [Nat.lt_irrefl, if_false] at hab
            rw [h2] at hbc
            simp only [Nat.lt_irrefl, if_false] at hbc
            exact ih hab hbc
          · rw [if_neg (by omega), if_pos h2] at hbc
            cases hbc
        · rw [if_neg (by omega), if_pos h1] at hab
          cases hab

theorem strLe_antisymm : ∀ {a b : Str}, strLe a b = true → strLe b a = true → a = b := by
  intro a
  induction a with
  | nil =>
    intro b _ hba
    cases b with
    | nil => rfl
    | cons d bs => simp [strLe] at hba
  | cons c as ih =>
    intro b hab hba
    cases b with
    | nil => simp [strLe] at hab
    | cons d bs =>
      simp only [strLe] at hab hba
      rcases Nat.lt_trichotomy c.toNat d.toNat with h1 | h1 | h1
      · rw [if_neg (by omega), if_pos h1] at hba
        cases hba
      · rw [h1] at hab
        simp only [Nat.lt_irrefl, if_false] at hab
        rw [← h1] at hba
        simp only [Nat.lt_irrefl, if_false] at hba
        rw [charToNat_inj h1, ih hab hba]
      · rw [if_neg (by omega), if_pos h1] at hab
        cases hab

theorem roleCmpLe_refl (a : Member) : roleCmpLe a a = true := by
  unfold roleCmpLe
  rw [if_neg (by omega)]
  exact strLe_refl a.firstName

theorem roleCmpLe_total (a b : Member) : roleCmpLe a b = true ∨ roleCmpLe b a = true := by
  unfold roleCmpLe
  by_cases h : getFamilyRolePriority a.familyRole = getFamilyRolePriority b.familyRole
  · rw [if_neg (by omega), if_neg (by omega)]
    exact strLe_total _ _
  · rw [if_pos (by omega), if_pos (by omega)]
    rcases Nat.lt_or_ge (getFamilyRolePriority a.familyRole)
        (getFamilyRolePriority b.familyRole) with h2 | h2
    · left
      simpa using h2
    · right
      have : getFamilyRolePriority b.familyRole < getFamilyRolePriority a.familyRole := by omega
      simpa using this

theorem roleCmpLe_trans {a b c : Member} (hab : roleCmpLe a b = true)
    (hbc : roleCmpLe b c = true) : roleCmpLe a c = true := by
  unfold roleCmpLe at hab hbc ⊢
  by_cases h1 : getFamilyRolePriority a.familyRole = getFamilyRolePriority b.familyRole
  · by_cases h2 : getFamilyRolePriority b.familyRole = getFamilyRolePriority c.familyRole
    · rw [if_neg (by omega)] at hab
      rw [if_neg (by omega)] at hbc
      rw [if_neg (by omega)]
      exact strLe_trans hab hbc
    · rw [if_pos (by omega)] at hbc
      rw [if_pos (by omega)]
      simp only [decide_eq_true_eq] at hbc ⊢
      omega
  · rw [if_pos (by omega)] at hab
    simp only [decide_eq_true_eq] at hab
    by_cases h2 : getFamilyRolePriority b.familyRole = getFamilyRolePriority c.familyRole
    · rw [if_pos (by omega)]
      simp only [decide_eq_true_eq]
      omega
    · rw [if_pos (by omega)] at hbc
      simp only [decide_eq_true_eq] at hbc
      rw [if_pos (by omega)]
      simp only [decide_eq_true_eq]
      omega

theorem roleCmpLe_keys {a b : Member} (hab : roleCmpLe a b = true)
    (hba : roleCmpLe b a = true) :
    getFamilyRolePriority a.familyRole = getFamilyRolePriority b.familyRole ∧
      a.firstName = b.firstName := by
  unfold roleCmpLe at hab hba
  by_cases h : getFamilyRolePriority a.familyRole = getFamilyRolePriority b.familyRole
  · rw [if_neg (by omega)] at hab
    rw [if_neg (by omega)] at hba
    exact ⟨h, strLe_antisymm hab hba⟩
  · rw [if_pos (by omega)] at hab
    rw [if_pos (by omega)] at hba
    simp only [decide_eq_true_eq] at hab hba
    omega

theorem selectFamilyRepresentative_spec (l : List Member) (hne : l ≠ []) :
    ∃ r, selectFamilyRepresentative l = some r ∧ r ∈ l ∧ ∀ x ∈ l, roleCmpLe r x = true := by
  haveI htot : IsTotal Member (fun a b => roleCmpLe a b = true) := ⟨roleCmpLe_total⟩
  haveI htrans : IsTrans Member (fun a b => roleCmpLe a b = true) :=
    ⟨fun _ _ _ => roleCmpLe_trans⟩
  match l with
  | [] => exact absurd rfl hne
  | [m] =>
    refine ⟨m, rfl, List.mem_singleton.mpr rfl, ?_⟩
    intro x hx
    rw [List.mem_singleton.mp hx]
    exact roleCmpLe_refl m
  | a :: b :: t =>
    have hsel : selectFamilyRepresentative (a :: b :: t) =
        (List.insertionSort (fun x y => roleCmpLe x y = true) (a :: b :: t)).head? := rfl
    have hperm := List.perm_insertionSort (fun x y => roleCmpLe x y = true) (a :: b :: t)
    have hsorted := List.sorted_insertionSort (fun x y => roleCmpLe x y = true) (a :: b :: t)
    cases hs : List.insertionSort (fun x y => roleCmpLe x y = true) (a :: b :: t) with
    | nil =>
      rw [hs] at hperm
      exact absurd (hperm.symm.length_eq) (by simp)
    | cons h0 rest =>
      rw [hs] at hperm hsorted
      refine ⟨h0, by rw [hsel, hs]; rfl, hperm.mem_iff.mp (List.mem_cons_self h0 rest), ?_⟩
      intro x hx
      rcases List.mem_cons.mp (hperm.mem_iff.mpr hx) with h | h
      · rw [h]
        exact roleCmpLe_refl h0
      · exact List.rel_of_sorted_cons hsorted x h

theorem selectFamilyRepresentative_perm (l l' : List Member)
    (hinj : ∀ a ∈ l, ∀ b ∈ l,
      getFamilyRolePriority a.familyRole = getFamilyRolePriority b.familyRole →
      a.firstName = b.firstName → a = b)
    (hperm : l'.Perm l) : selectFamilyRepresentative l' = selectFamilyRepresentative l := by
  cases hl : l with
  | nil =>
    subst hl
    rw [List.perm_nil.mp hperm]
  | cons a t =>
    subst hl
    have hne : (a :: t) ≠ ([] : List Member) := by simp
    have hne2 : l' ≠ ([] : List Member) := by
      intro h
      rw [h] at hperm
      exact hne (List.perm_nil.mp hperm.symm)
    obtain ⟨r, hr1, hr2, hr3⟩ := selectFamilyRepresentative_spec _ hne
    obtain ⟨r', hr1', hr2', hr3'⟩ := selectFamilyRepresentative_spec l' hne2
    have hrr : roleCmpLe r r' = true := hr3 r' (hperm.mem_iff.mp hr2')
    have hrr' : roleCmpLe r' r = true := hr3' r (hperm.mem_iff.mpr hr2)
    obtain ⟨hk1, hk2⟩ := roleCmpLe_keys hrr hrr'
    have : r = r' := hinj r hr2 r' (hperm.mem_iff.mp hr2') hk1 hk2
    rw [hr1, hr1', this]

/-- C4 (amended): for every non-empty candidate list the selector returns
exactly one member, a minimum under the role-priority-then-first-name
comparator; the result is independent of input order whenever no two
candidates share both role priority and first name; the priority table is
head-of-household 1, spouse 2, adult 3, child 4, unassigned 5; and
candidates without a family id pass through as their own representatives. -/
theorem family_representative_C4 (l : List Member) (hne : l ≠ [])
    (hinj : ∀ a ∈ l, ∀ b ∈ l,
      getFamilyRolePriority a.familyRole = getFamilyRolePriority b.familyRole →
      a.firstName = b.firstName → a = b) :
    (∃ r, selectFamilyRepresentative l = some r ∧ r ∈ l ∧ ∀ x ∈ l, roleCmpLe r x = true) ∧
    (∀ l', l'.Perm l → selectFamilyRepresentative l' = selectFamilyRepresentative l) ∧
    (getFamilyRolePriority (some (str "Head of Household")) = 1 ∧
      getFamilyRolePriority (some (str "Spouse")) = 2 ∧
      getFamilyRolePriority (some (str "Adult")) = 3 ∧
      getFamilyRolePriority (some (str "Child")) = 4 ∧
      getFamilyRolePriority (some (str "Unassigned")) = 5) ∧
    (∀ (mws : List Member) (excl : List Str) (p : Member),
      p ∈ notInGCGCandidates mws excl → hasFamilyId p.familyId = false →
      clearFamily p ∈ calculateFamilyRepresentatives mws excl) := by
  refine ⟨selectFamilyRepresentative_spec l hne,
    fun l' hp => selectFamilyRepresentative_perm l l' hinj hp, by decide, ?_⟩
  intro mws excl p hp hfam
  unfold calculateFamilyRepresentatives
  refine List.mem_append.mpr (Or.inr ?_)
  exact List.mem_map.mpr ⟨p, List.mem_filter.mpr ⟨hp, by simp [hfam]⟩, rfl⟩

theorem family_representative_C4_witness :
    ∃ r, selectFamilyRepresentative [famAmy, famZoe] = some r ∧ r ∈ [famAmy, famZoe] ∧
      ∀ x ∈ [famAmy, famZoe], roleCmpLe r x = true :=
  (family_representative_C4 [famAmy, famZoe] (by decide) (by decide)).1

/-- C4 counterexample: two family members tying on role priority and first
name make the selected representative depend on input order, refuting the
claimed order-independence for arbitrary families. -/
theorem family_representative_C4_counterexample :
    (List.Perm [coTieB, coTieA] [coTieA, coTieB]) ∧
    selectFamilyRepresentative [coTieA, coTieB] = some coTieA ∧
    selectFamilyRepresentative [coTieB, coTieA] = some coTieB ∧
    coTieA ≠ coTieB := by
  refine ⟨List.Perm.swap coTieA coTieB [], by decide, by decide, by decide⟩

theorem deletionReason_cases (x : Option Member) :
    deletionReason x = str "No longer in active members" ∨
    (∃ g, deletionReason x = str "Now in GCG: " ++ g) ∨
    deletionReason x = str "Data inconsistency - not in active members export" ∨
    deletionReason x = str "Unknown" := by
  cases x with
  | none => exact Or.inl rfl
  | some m =>
    rw [show deletionReason (some m) =
      (if m.gcgStatus.inGroup then
        str "Now in GCG: " ++
          (match m.gcgStatus.groupName with | some g => g | none => str "null")
      else if m.isSynthetic then str "Data inconsistency - not in active members export"
      else str "Unknown") from rfl]
    by_cases h1 : m.gcgStatus.inGroup = true
    · rw [if_pos h1]
      exact Or.inr (Or.inl ⟨_, rfl⟩)
    · rw [if_neg h1]
      by_cases h2 : m.isSynthetic = true
      · rw [if_pos h2]
        exact Or.inr (Or.inr (Or.inl rfl))
      · rw [if_neg h2]
        exact Or.inr (Or.inr (Or.inr rfl))

/-- C5 (amended): every not-grouped deletion record carries a reason, and
that reason is one of exactly: no longer in active members, now in GCG
(with the group name), data inconsistency for synthetic members, or the
literal fallback Unknown. -/
theorem not_grouped_reasons_C5 (mws : List Member) (excl : List Str)
    (ng : List NotGroupedEntry) (d : NotInGcgDeletion)
    (hd : d ∈ (calculateNotInGCGChangesWithFamilyLogic mws excl ng).deletions) :
    d.reason = str "No longer in active members" ∨
    (∃ g, d.reason = str "Now in GCG: " ++ g) ∨
    d.reason = str "Data inconsistency - not in active members export" ∨
    d.reason = str "Unknown" := by
  unfold calculateNotInGCGChangesWithFamilyLogic at hd
  simp only at hd
  obtain ⟨cp, hcp, hf⟩ := List.mem_filterMap.mp hd
  split at hf
  · cases hf
  · split at hf
    · cases hf
    · injection hf with h
      rw [← h]
      exact deletionReason_cases _

theorem not_grouped_reasons_C5_witness :
    zoeDeletion.reason = str "No longer in active members" ∨
    (∃ g, zoeDeletion.reason = str "Now in GCG: " ++ g) ∨
    zoeDeletion.reason = str "Data inconsistency - not in active members export" ∨
    zoeDeletion.reason = str "Unknown" :=
  not_grouped_reasons_C5 [famAmy, famZoe] [] [zoeRow] zoeDeletion (by decide)

/-- C5 counterexample: in the displaced-representative scenario (Amy and
Zoe share family F1, Amy wins, Zoe is currently listed) Zoe's removal
record carries the reason Unknown, not the claimed reason about losing
family-representative status. -/
theorem not_grouped_reasons_C5_counterexample :
    (calculateNotInGCGChangesWithFamilyLogic [famAmy, famZoe] [] [zoeRow]).additions.map
        (fun m => m.personId) = [str "1"] ∧
    (calculateNotInGCGChangesWithFamilyLogic [famAmy, famZoe] [] [zoeRow]).deletions =
      [zoeDeletion] ∧
    zoeDeletion.reason = str "Unknown" ∧
    str "Unknown" ≠ str "lost family-representative status" := by
  refine ⟨by decide, by decide, by decide, by decide⟩

/-- C7: the engine is a pure function of its materialized snapshots: two
runs of the comparison and of the not-grouped differ over equal inputs
produce equal change sets. -/
theorem engine_determinism_C7 (am1 am2 : List Member) (d1 d2 : List (List Str))
    (mws1 mws2 : List Member) (ex1 ex2 : List Str) (ng1 ng2 : List NotGroupedEntry)
    (h1 : am1 = am2) (h2 : d1 = d2) (h3 : mws1 = mws2) (h4 : ex1 = ex2) (h5 : ng1 = ng2) :
    fixedCompareWithInactiveFiltering am1 d1 = fixedCompareWithInactiveFiltering am2 d2 ∧
    calculateNotInGCGChangesWithFamilyLogic mws1 ex1 ng1 =
      calculateNotInGCGChangesWithFamilyLogic mws2 ex2 ng2 := by
  subst h1
  subst h2
  subst h3
  subst h4
  subst h5
  exact ⟨rfl, rfl⟩

theorem engine_determinism_C7_witness :
    fixedCompareWithInactiveFiltering [famAmy] [] = fixedCompareWithInactiveFiltering [famAmy] [] ∧
    calculateNotInGCGChangesWithFamilyLogic [famAmy] [] [zoeRow] =
      calculateNotInGCGChangesWithFamilyLogic [famAmy] [] [zoeRow] :=
  engine_determinism_C7 [famAmy] [famAmy] [] [] [famAmy] [famAmy] [] [] [zoeRow] [zoeRow]
    rfl rfl rfl rfl rfl

theorem gcgMemberRows_group {cols : GcgCols} :
    ∀ {rows : List (List Str)} {i : Nat} {m : CurrentMember},
      m ∈ gcgMemberRows cols rows i → m.group ≠ [] ∧ lowerStr m.group ≠ str "x" := by
  intro rows
  induction rows with
  | nil => intro i m h; cases h
  | cons row rest ih =>
    intro i m h
    simp only [gcgMemberRows] at h
    split at h
    · exact ih h
    · split at h
      · rename_i hcond
        rcases List.mem_cons.mp h with h2 | h2
        · rw [h2]
          exact hcond
        · exact ih h2
      · exact ih h

theorem getGCG_no_sentinel {data : List (List Str)} {l : List CurrentMember}
    (h : getGCGMembersWithPersonId data = .ok l) :
    ∀ m ∈ l, m.group ≠ [] ∧ lowerStr m.group ≠ str "x" := by
  unfold getGCGMembersWithPersonId at h
  split at h
  · injection h with h2
    rw [← h2]
    intro m hm
    cases hm
  · dsimp only at h
    split at h
    · split at h
      · simp at h
      · injection h with h2
        rw [← h2]
        intro m hm
        exact gcgMemberRows_group hm
    · split at h
      · simp at h
      · injection h with h2
        rw [← h2]
        intro m hm
        exact gcgMemberRows_group hm

/-- C8: a roster row whose group label is the sentinel x never appears in
the comparison output: every removal, every inconsistent-export entry and
every update target has a group label other than x (case-insensitively). -/
theorem sentinel_x_excluded_C8 (am : List Member) (data : List (List Str)) (ch : Changes)
    (h : fixedCompareWithInactiveFiltering am data = .ok ch) :
    (∀ c ∈ ch.removals, lowerStr c.group ≠ str "x") ∧
    (∀ c ∈ ch.exportMissingButActive, lowerStr c.group ≠ str "x") ∧
    (∀ u ∈ ch.updates, lowerStr (updateCurrentOf u).group ≠ str "x") := by
  unfold fixedCompareWithInactiveFiltering at h
  cases hg : getGCGMembersWithPersonId data with
  | error e =>
    rw [hg] at h
    cases h
  | ok l =>
    rw [hg] at h
    injection h with h2
    have hall := getGCG_no_sentinel hg
    have hacm : ∀ c ∈ activeCurrentOf l, lowerStr c.group ≠ str "x" :=
      fun c hc => (hall c (List.mem_filter.mp hc).1).2
    subst h2
    refine ⟨?_, ?_, ?_⟩
    · intro c hc
      exact hacm c ((mem_removals_iff am l c).mp hc).1
    · intro c hc
      exact hacm c ((mem_incons_iff am l c).mp hc).1
    · intro u hu
      obtain ⟨em, hm, hF⟩ := (mem_updates_iff am l u).mp hu
      rcases updateFor_cases hF with ⟨cm, hlook, rfl, _⟩ | ⟨nm, _, hlook, rfl⟩
      · exact hacm cm (lookupById_some hlook).1
      · exact hacm nm (lookupByName_some hlook).1

theorem sentinel_x_excluded_C8_witness : lowerStr boC8.group ≠ str "x" :=
  (sentinel_x_excluded_C8 [] sheetC8 chC8 rfl).1 boC8 (by decide)

theorem lookupById_nil (pid : Str) : lookupById [] pid = none := by
  unfold lookupById
  split
  · rfl
  · rfl

/-- C9 (amended): fully empty roster data (no rows beyond a possible
header) yields a successful comparison whose removals and updates are both
empty, rather than an error. -/
theorem empty_roster_graceful_C9 (am : List Member) (data : List (List Str))
    (h : data.length ≤ 1) :
    fixedCompareWithInactiveFiltering am data = .ok (fixedCompareCore am []) ∧
    (fixedCompareCore am []).removals = [] ∧
    (fixedCompareCore am []).updates = [] := by
  refine ⟨?_, ?_, ?_⟩
  · unfold fixedCompareWithInactiveFiltering getGCGMembersWithPersonId
    rw [if_pos h]
    rfl
  · rfl
  · show (processExports (activeCurrentOf []) (exportMembersOf am [])).2 = []
    rw [processExports_eq]
    refine List.filterMap_eq_nil_iff.mpr ?_
    intro em _
    rw [show activeCurrentOf [] = [] from rfl]
    unfold updateFor
    rw [lookupById_nil]
    rfl

theorem empty_roster_graceful_C9_witness :
    fixedCompareWithInactiveFiltering [famAmy] [[str "only header"]] =
      .ok (fixedCompareCore [famAmy] []) ∧
    (fixedCompareCore [famAmy] []).removals = [] ∧
    (fixedCompareCore [famAmy] []).updates = [] :=
  empty_roster_graceful_C9 [famAmy] [[str "only header"]] (by decide)

/-- C9 counterexample: malformed roster data that has data rows but no
Person ID column makes the engine raise the missing-column error instead of
returning an empty result, refuting the claim for malformed (as opposed to
empty) data. -/
theorem empty_roster_graceful_C9_counterexample :
    fixedCompareWithInactiveFiltering [] [[str "junk"], [str "more junk"]] =
      .error (str "Person ID column not found. Please ensure column A has Person ID header.") :=
  rfl

theorem containsSub_nil_of_ne {s : Str} (h : s ≠ []) : containsSub [] s = false := by
  cases s with
  | nil => exact absurd rfl h
  | cons c t => rfl

theorem findColumnIndexAux_spec (s : Str) (hs : s ≠ []) :
    ∀ (cells : List Str) (i : Nat),
      (findColumnIndexAux s cells i = -1 ∧
        ∀ c ∈ cells, containsSub (lowerStr c) s = false) ∨
      (∃ k : Nat, k < cells.length ∧ findColumnIndexAux s cells i = ((i + k : Nat) : Int) ∧
        containsSub (lowerStr (cells.getD k [])) s = true ∧
        ∀ j < k, containsSub (lowerStr (cells.getD j [])) s = false) := by
  intro cells
  induction cells with
  | nil =>
    intro i
    left
    exact ⟨rfl, fun c hc => absurd hc (List.not_mem_nil c)⟩
  | cons c rest ih =>
    intro i
    by_cases hc : c ≠ [] ∧ containsSub (lowerStr c) s = true
    · right
      refine ⟨0, by simp, ?_, by simpa using hc.2, fun j hj => absurd hj (Nat.not_lt_zero j)⟩
      rw [show findColumnIndexAux s (c :: rest) i =
        (if c ≠ [] ∧ containsSub (lowerStr c) s = true then (i : Int)
         else findColumnIndexAux s rest (i + 1)) from rfl]
      rw [if_pos hc]
      simp
    · have hcf : containsSub (lowerStr c) s = false := by
        cases hcc : containsSub (lowerStr c) s with
        | false => rfl
        | true =>
          exfalso
          apply hc
          refine ⟨?_, hcc⟩
          intro hnil
          rw [hnil] at hcc
          rw [show lowerStr [] = [] from rfl] at hcc
          rw [containsSub_nil_of_ne hs] at hcc
          cases hcc
      have hstep : findColumnIndexAux s (c :: rest) i = findColumnIndexAux s rest (i + 1) := by
        rw [show findColumnIndexAux s (c :: rest) i =
          (if c ≠ [] ∧ containsSub (lowerStr c) s = true then (i : Int)
           else findColumnIndexAux s rest (i + 1)) from rfl]
        rw [if_neg hc]
      rcases ih (i + 1) with ⟨h1, h2⟩ | ⟨k, hk1, hk2, hk3, hk4⟩
      · left
        refine ⟨by rw [hstep]; exact h1, ?_⟩
        intro c2 hc2
        rcases List.mem_cons.mp hc2 with h3 | h3
        · rw [h3]
          exact hcf
        · exact h2 c2 h3
      · right
        refine ⟨k + 1, by simpa using hk1, ?_, by simpa using hk3, ?_⟩
        · rw [hstep, hk2]
          congr 1
          omega
        · intro j hj
          cases j with
          | zero => simpa using hcf
          | succ j2 =>
            have : j2 < k := by omega
            simpa using hk4 j2 this

/-- C10: for a non-empty search name, findColumnIndex returns the index of
the first header cell whose lowercased text contains the lowercased search
name as a substring, or -1 when no cell contains it; consequently the
lookup for Family resolves to a preceding Family Name column. -/
theorem find_column_containment_C10 (headers : List Str) (name : Str) (hne : name ≠ []) :
    ((findColumnIndex headers name = -1 ∧
        ∀ c ∈ headers, containsSub (lowerStr c) (lowerStr name) = false) ∨
      (∃ k : Nat, k < headers.length ∧ findColumnIndex headers name = (k : Int) ∧
        containsSub (lowerStr (headers.getD k [])) (lowerStr name) = true ∧
        ∀ j < k, containsSub (lowerStr (headers.getD j [])) (lowerStr name) = false)) ∧
    findColumnIndex [str "Family Name", str "Family"] (str "Family") = 0 := by
  have hs : lowerStr name ≠ [] := by
    intro h2
    exact hne (List.map_eq_nil_iff.mp h2)
  refine ⟨?_, by decide⟩
  rcases findColumnIndexAux_spec (lowerStr name) hs headers 0 with ⟨h1, h2⟩ | ⟨k, hk1, hk2, hk3, hk4⟩
  · exact Or.inl ⟨h1, h2⟩
  · right
    refine ⟨k, hk1, ?_, hk3, hk4⟩
    rw [show findColumnIndex headers name = findColumnIndexAux (lowerStr name) headers 0 from rfl]
    rw [hk2]
    simp

theorem find_column_containment_C10_witness :
    findColumnIndex [str "Family Name", str "Family"] (str "Family") = 0 :=
  (find_column_containment_C10 [str "Family Name", str "Family"] (str "Family") (by decide)).2

end Gcg
